import Mathlib

/-!
Shallow embedding of `src/edupage_api/lunches.py` (the edupage-api lunches
module): the day-record normalization engine (`Lunches.get_meals` and its
inner `_extract_primary_day`), and the `Meal.choose` letter-indexing logic.

Python values are modelled by the inductive `Val` (dicts as association
lists in insertion order, which is how Python dicts behave); Python `int`
and `float` are modelled together as rationals (`ℚ`); operations that can
raise in Python (attribute access on a non-dict, iteration over a
non-iterable) are modelled in `Except PyErr`.  `copy.deepcopy` on the pure
value model is the identity; the aliasing/frame claim is settled separately
on an explicit heap model at the end of the file.
-/

/-- Python runtime value (restricted to the shapes the lunches payload uses). -/
inductive Val where
  | vnone : Val
  | vbool (b : Bool) : Val
  | vnum (q : ℚ) : Val
  | vstr (s : String) : Val
  | vlist (xs : List Val) : Val
  | vdict (kvs : List (String × Val)) : Val
deriving Repr

/-- Errors the normalization code can raise (uncaught Python exceptions). -/
inductive PyErr where
  | attributeError : PyErr
  | typeError : PyErr
deriving Repr, DecidableEq

instance exceptDecEq {e a : Type} [DecidableEq e] [DecidableEq a] :
    DecidableEq (Except e a) := fun x y =>
  match x, y with
  | .ok u, .ok v =>
    if h : u = v then isTrue (by rw [h]) else isFalse (fun hh => h (Except.ok.inj hh))
  | .error u, .error v =>
    if h : u = v then isTrue (by rw [h]) else isFalse (fun hh => h (Except.error.inj hh))
  | .ok _, .error _ => isFalse (fun hh => Except.noConfusion hh)
  | .error _, .ok _ => isFalse (fun hh => Except.noConfusion hh)

/-- `d.get(k)` / `d[k]`: first binding of `k` in the association list. -/
def dictLookup : List (String × Val) → String → Option Val
  | [], _ => Option.none
  | p :: rest, k => if p.1 = k then some p.2 else dictLookup rest k

/-- `d.get(k, default)`. -/
def dictGetD (kvs : List (String × Val)) (k : String) (dflt : Val) : Val :=
  (dictLookup kvs k).getD dflt

/-- Insert-or-replace semantics of a single Python dict item assignment:
an existing key keeps its position and gets the new value, a new key is
appended at the end. -/
def upsert : List (String × Val) → String → Val → List (String × Val)
  | [], k, v => [(k, v)]
  | p :: rest, k, v => if p.1 = k then (k, v) :: rest else p :: upsert rest k v

/-- `d.update(e)`: upsert every item of `e` into `d`, in order. -/
def dictUpdate (d e : List (String × Val)) : List (String × Val) :=
  e.foldl (fun acc p => upsert acc p.1 p.2) d

/-- `d.pop(k, None)`: remove the binding of `k` (if any). -/
def dictPop (kvs : List (String × Val)) (k : String) : List (String × Val) :=
  kvs.filter (fun p => p.1 ≠ k)

/-- Python truthiness for our value model. -/
def truthy : Val → Bool
  | .vnone => false
  | .vbool b => b
  | .vnum q => decide (q ≠ 0)
  | .vstr s => !s.isEmpty
  | .vlist xs => !xs.isEmpty
  | .vdict kvs => !kvs.isEmpty

/-- Python `a or b` (value-returning short-circuit or). -/
def pyOr (a b : Val) : Val :=
  if truthy a then a else b

theorem lookup_upsert (kvs : List (String × Val)) (k k' : String) (v : Val) :
    dictLookup (upsert kvs k v) k' =
      if k' = k then some v else dictLookup kvs k' := by
  induction kvs with
  | nil =>
    by_cases h : k' = k
    · simp [upsert, dictLookup, h]
    · have h2 : ¬ k = k' := fun hh => h hh.symm
      simp [upsert, dictLookup, h, h2]
  | cons p rest ih =>
    by_cases hp : p.1 = k
    · by_cases h : k' = k
      · subst h
        simp [upsert, dictLookup, hp]
      · have h2 : ¬ k = k' := fun hh => h hh.symm
        simp [upsert, dictLookup, hp, h, h2]
    · by_cases h : p.1 = k'
      · have hk'k : ¬ k' = k := fun hh => hp (h.trans hh)
        simp [upsert, dictLookup, hp, h, hk'k]
      · simp [upsert, dictLookup, hp, h, ih]

/-! ## Numbers: Python `int()` / `float()` coercions, truncation, rounding -/

/-- Decimal value of a digit list. -/
def digitsVal (cs : List Char) : Nat :=
  cs.foldl (fun n c => n * 10 + (c.toNat - 48)) 0

/-- `10 ^ e` over ℚ for a signed exponent. -/
def qpow10 (e : Int) : ℚ :=
  if e < 0 then 1 / (10 : ℚ) ^ e.natAbs else (10 : ℚ) ^ e.natAbs

/-- ASCII whitespace, the set `str.strip()` / `float()` / `int()` remove. -/
def isSpaceChar (c : Char) : Bool :=
  c = ' ' ∨ c = '\t' ∨ c = '\n' ∨ c = '\r' ∨ c = '\x0b' ∨ c = '\x0c'

/-- Python `s.strip()` (structural, so it evaluates by kernel reduction). -/
def pyStrip (s : String) : List Char :=
  ((s.data.dropWhile isSpaceChar).reverse.dropWhile isSpaceChar).reverse

/-- Exponent tail of a float literal (after the `e`). -/
def parseExpTail (cs : List Char) : Option Int :=
  match cs with
  | '+' :: ds => if ds ≠ [] ∧ ds.all Char.isDigit then some (digitsVal ds : Int) else Option.none
  | '-' :: ds => if ds ≠ [] ∧ ds.all Char.isDigit then some (-(digitsVal ds : Int)) else Option.none
  | ds => if ds ≠ [] ∧ ds.all Char.isDigit then some (digitsVal ds : Int) else Option.none

/-- Unsigned part of a Python float literal: `digits`, `digits.`, `digits.digits`,
`.digits`, each optionally followed by an exponent.  (Special values such as
`inf`/`nan` are treated as unparsable: the callers below either wrap the parse in
`int(...)`, where they raise anyway, or never receive them.) -/
def parseFloatAux (cs : List Char) : Option ℚ :=
  let ip := cs.takeWhile Char.isDigit
  let rest1 := cs.drop ip.length
  match rest1 with
  | [] => if ip.isEmpty then Option.none else some ((digitsVal ip : ℚ))
  | '.' :: rest2 =>
    let fp := rest2.takeWhile Char.isDigit
    let rest3 := rest2.drop fp.length
    if ip.isEmpty ∧ fp.isEmpty then Option.none
    else
      let base : ℚ := (digitsVal ip : ℚ) + (digitsVal fp : ℚ) / (10 : ℚ) ^ fp.length
      match rest3 with
      | [] => some base
      | c :: rest4 =>
        if c = 'e' ∨ c = 'E' then (parseExpTail rest4).map (fun e => base * qpow10 e)
        else Option.none
  | c :: rest2 =>
    if (c = 'e' ∨ c = 'E') ∧ ¬ ip.isEmpty then
      (parseExpTail rest2).map (fun e => (digitsVal ip : ℚ) * qpow10 e)
    else Option.none

/-- Python `float(s)` for a string: strips whitespace, optional sign, literal body. -/
def parseFloatQ (s : String) : Option ℚ :=
  match pyStrip s with
  | '+' :: cs => parseFloatAux cs
  | '-' :: cs => (parseFloatAux cs).map Neg.neg
  | cs => parseFloatAux cs

/-- Python `int(s)` digits body. -/
def parseIntDigits (cs : List Char) : Option Int :=
  if cs ≠ [] ∧ cs.all Char.isDigit then some ((digitsVal cs : Int)) else Option.none

/-- Python `int(s)` for a string: strips whitespace, optional sign, digits only. -/
def parseIntLit (s : String) : Option Int :=
  match pyStrip s with
  | '+' :: cs => parseIntDigits cs
  | '-' :: cs => (parseIntDigits cs).map Neg.neg
  | cs => parseIntDigits cs

/-- Floor of a rational, computed on the normalized numerator/denominator. -/
def ratFloor (q : ℚ) : Int :=
  Int.fdiv q.num (q.den : Int)

/-- Truncation toward zero, the behaviour of Python `int(float)`. -/
def ratTrunc (q : ℚ) : Int :=
  Int.tdiv q.num (q.den : Int)

/-- Round to the nearest integer, ties to even (Python `round`). -/
def roundHalfEven (q : ℚ) : Int :=
  let f := ratFloor q
  let r := q - (f : ℚ)
  if r < 1/2 then f
  else if 1/2 < r then f + 1
  else if f % 2 = 0 then f else f + 1

/-- Python `round(q, 2)` (on the idealized rational value). -/
def round2 (q : ℚ) : ℚ :=
  ((roundHalfEven (q * 100) : ℚ)) / 100

/-- Python `float(x)`: numbers pass through, bools become 0/1, strings are
parsed, everything else raises (the callers catch that and drop the value). -/
def pyFloat : Val → Option ℚ
  | .vnum q => some q
  | .vbool b => some (if b then 1 else 0)
  | .vstr s => parseFloatQ s
  | _ => Option.none

/-- Python `int(x)`: numbers truncate, bools become 0/1, strings must be
integer literals, everything else raises (callers catch and default). -/
def pyInt : Val → Option Int
  | .vnum q => some (ratTrunc q)
  | .vbool b => some (if b then 1 else 0)
  | .vstr s => parseIntLit s
  | _ => Option.none

/-- `int(float(str(x).strip()))` of the weight candidate value: numbers
truncate, strings are trimmed and float-parsed then truncated, any other
value's `str(...)` rendering fails the float parse. -/
def pyWeightConv : Val → Option Int
  | .vnum q => some (ratTrunc q)
  | .vstr s => (parseFloatQ s).map ratTrunc
  | _ => Option.none

/-! ## The day normalizer (`_extract_primary_day`, lunches.py lines 230-319) -/

/-- The canonical not-cooking record `{"isCooking": False}`. -/
def notCooking : Val := .vdict [("isCooking", .vbool false)]

/-- Slot selection (lines 241-247): prefer code "2" when it is a dict
(deep-copied - the identity on pure values), else overlay the dict values of
codes "2", "0", "4" in that order onto an empty accumulator. -/
def slotDict (obj : List (String × Val)) (k : String) : Option (List (String × Val)) :=
  match dictLookup obj k with
  | some (.vdict d) => some d
  | _ => Option.none

def mergeSlots (obj : List (String × Val)) : List (String × Val) :=
  match slotDict obj "2" with
  | some d => d
  | Option.none =>
    ["2", "0", "4"].foldl
      (fun acc k =>
        match slotDict obj k with
        | some d => dictUpdate acc d
        | Option.none => acc)
      []

/-- The four weight key candidates, in scan order (line 274). -/
def weightKeys : List String := ["hmotnostiStr", "hmotnostStr", "hmotnosti", "hmotnost"]

/-- First candidate key present with a non-None value (`wk in r and r[wk] is not None`). -/
def findWeightVal (rd : List (String × Val)) : List String → Option Val
  | [] => Option.none
  | k :: ks =>
    match dictLookup rd k with
    | some .vnone => findWeightVal rd ks
    | some v => some v
    | Option.none => findWeightVal rd ks

/-- Net weight of a dish row (lines 273-283): convert the first present
non-None candidate, defaulting to 0 on conversion failure or absence; no
later key is tried after the first present one. -/
def coerceWeight (rd : List (String × Val)) : Int :=
  match findWeightVal rd weightKeys with
  | some v => (pyWeightConv v).getD 0
  | Option.none => 0

/-- Python iteration `for x in v`: lists yield elements, strings yield
1-character strings, dicts yield their keys, anything else raises TypeError. -/
def toIter : Val → Except PyErr (List Val)
  | .vlist xs => .ok xs
  | .vstr s => .ok (s.data.map (fun c => .vstr (String.mk [c])))
  | .vdict kvs => .ok (kvs.map (fun p => .vstr p.1))
  | _ => .error .typeError

/-- The rows loop (lines 268-283): each element must be a dict (`r.get`
raises otherwise), rows with a falsy `nazov` are skipped, kept rows emit
`{"name": raw nazov, "weight": coerced int}` in order. -/
def rowsClean : List Val → Except PyErr (List Val)
  | [] => .ok []
  | .vdict rd :: rest =>
    if truthy (dictGetD rd "nazov" .vnone) then
      match rowsClean rest with
      | .ok rest' =>
        .ok (.vdict [("name", dictGetD rd "nazov" .vnone),
                     ("weight", .vnum ((coerceWeight rd : Int) : ℚ))] :: rest')
      | .error e => .error e
    else rowsClean rest
  | _ :: _ => .error .attributeError

/-- `menus.get(mid, {}).get("rows", []) if isinstance(menus.get(mid, {}), dict) else []`
(line 266); `menus` itself must be a dict or `.get` raises. -/
def menuRows (menus : Val) (mid : String) : Except PyErr Val :=
  match menus with
  | .vdict m =>
    match dictGetD m mid (.vdict []) with
    | .vdict sub => .ok (dictGetD sub "rows" (.vlist []))
    | _ => .ok (.vlist [])
  | _ => .error .attributeError

/-- `hodnotenia.get(mid)` (line 291); `hodnotenia` must be a dict. -/
def hodGet (hod : Val) (mid : String) : Except PyErr Val :=
  match hod with
  | .vdict h => .ok ((dictLookup h mid).getD .vnone)
  | _ => .error .attributeError

/-- The rating filter loop (lines 294-304): skip None entries, each other
entry must be a dict (`it.get` raises otherwise), skip entries whose
`priemer` is absent/None or fails `float(...)`, collect the parsed values. -/
def prFilter : List Val → Except PyErr (List ℚ)
  | [] => .ok []
  | .vnone :: rest => prFilter rest
  | .vdict d :: rest =>
    (match dictLookup d "priemer" with
     | Option.none => prFilter rest
     | some .vnone => prFilter rest
     | some pr =>
       match pyFloat pr with
       | some q =>
         match prFilter rest with
         | .ok qs => .ok (q :: qs)
         | .error e => .error e
       | Option.none => prFilter rest)
  | _ :: _ => .error .attributeError

/-- `int(arr[0].get("pocet", 0))` under `try/except` (lines 309-312). -/
def firstAmount (arr : List Val) : Int :=
  match arr with
  | .vdict d :: _ => (pyInt (dictGetD d "pocet" (.vnum 0))).getD 0
  | _ => 0

/-- One review summary (lines 291-316): a truthy non-empty list is filtered
and averaged (sentinel average -1 when the filter leaves nothing, amount
from the first raw entry); anything else yields the `{-1, 0}` record. -/
def aggregate (arr : Val) : Except PyErr (ℚ × Int) :=
  match arr with
  | .vlist (x :: xs) =>
    match prFilter (x :: xs) with
    | .ok qs =>
      .ok (if qs.isEmpty then (-1 : ℚ) else round2 (qs.sum / (qs.length : ℚ)),
           firstAmount (x :: xs))
    | .error e => .error e
  | _ => .ok (-1, 0)

/-- `{"average": ..., "amount": ...}` as inserted at lines 313/316. -/
def reviewVal (avg : ℚ) (amt : Int) : Val :=
  .vdict [("average", .vnum avg), ("amount", .vnum ((amt : Int) : ℚ))]

/-- Lines 252-319 given the merged (and nevarisa-stripped) slot: the
not-cooking short-circuit, then the output record with isCooking,
pass-through isRating, per-index menus and per-index reviews. -/
def menuList (menus : Val) (mid : String) : Except PyErr (List Val) :=
  match menuRows menus mid with
  | .error e => .error e
  | .ok rows =>
    match toIter rows with
    | .error e => .error e
    | .ok elems => rowsClean elems

def reviewFor (hod : Val) (mid : String) : Except PyErr Val :=
  match hodGet hod mid with
  | .error e => .error e
  | .ok arr =>
    match aggregate arr with
    | .error e => .error e
    | .ok rv => .ok (reviewVal rv.1 rv.2)

def extractFromMerged (merged : List (String × Val)) : Except PyErr Val :=
  if truthy (dictGetD merged "isCooking" .vnone) = false then
    .ok notCooking
  else
    let ratingPart : List (String × Val) :=
      match dictLookup merged "isRating" with
      | some r => [("isRating", r)]
      | Option.none => []
    let menus := pyOr (dictGetD merged "menus" (.vdict [])) (.vdict [])
    match menuList menus "1" with
    | .error e => .error e
    | .ok cl1 =>
      match menuList menus "2" with
      | .error e => .error e
      | .ok cl2 =>
        let hod := pyOr (dictGetD merged "hodnotenia" (.vdict [])) (.vdict [])
        match reviewFor hod "1" with
        | .error e => .error e
        | .ok rev1 =>
          match reviewFor hod "2" with
          | .error e => .error e
          | .ok rev2 =>
            .ok (.vdict ([("isCooking", .vbool true)] ++ ratingPart ++
              [("menus", .vdict [("1", .vlist cl1), ("2", .vlist cl2)]),
               ("reviews", .vdict [("1", rev1), ("2", rev2)])]))

/-- `_extract_primary_day` (lines 230-319): non-dicts short-circuit to the
not-cooking record, dicts go through slot merge, nevarisa removal, and the
merged-record pipeline. -/
def extractPrimaryDay (v : Val) : Except PyErr Val :=
  match v with
  | .vdict obj => extractFromMerged (dictPop (mergeSlots obj) "nevarisa")
  | _ => pure notCooking

/-! ## Week assembly and the info section (`get_meals`, lines 214-362) -/

/-- `date.weekday()` on the proleptic-Gregorian ordinal (ordinal 1 =
0001-01-01, a Monday; Monday = 0). -/
def pyWeekday (o : Nat) : Nat := (o + 6) % 7

/-- `date - timedelta(days=date.weekday())` (line 227). -/
def mondayOf (o : Nat) : Nat := o - pyWeekday o

/-- Ordinal to (year, month, day) in the proleptic Gregorian calendar
(the civil-from-days construction over 400-year eras). -/
def civilFromOrdinal (o : Nat) : Nat × Nat × Nat :=
  let z := o + 305
  let era := z / 146097
  let doe := z % 146097
  let yoe := (doe - doe / 1460 + doe / 36524 - doe / 146096) / 365
  let doy := doe - (365 * yoe + yoe / 4 - yoe / 100)
  let mp := (5 * doy + 2) / 153
  let d := doy - (153 * mp + 2) / 5 + 1
  let m := if mp < 10 then mp + 3 else mp - 9
  (if m ≤ 2 then era * 400 + yoe + 1 else era * 400 + yoe, m, d)

def pad2 (n : Nat) : String :=
  if n < 10 then "0" ++ toString n else toString n

def pad4 (n : Nat) : String :=
  if n < 10 then "000" ++ toString n
  else if n < 100 then "00" ++ toString n
  else if n < 1000 then "0" ++ toString n
  else toString n

/-- `strftime("%Y-%m-%d")` of an ordinal. -/
def fmtOrdinal (o : Nat) : String :=
  let c := civilFromOrdinal o
  pad4 c.1 ++ "-" ++ pad2 c.2.1 ++ "-" ++ pad2 c.2.2

/-- Line 228: the five Monday..Friday date keys of the reference date's week. -/
def weekKeys (o : Nat) : List String :=
  (List.range 5).map (fun i => fmtOrdinal (mondayOf o + i))

/-- Lines 322-328: every week key is inserted; a missing or None day gives
the not-cooking record, otherwise the day normalizer runs. -/
def dayRecord (root : List (String × Val)) (wk : String) : Except PyErr Val :=
  match dictLookup root wk with
  | Option.none => .ok notCooking
  | some .vnone => .ok notCooking
  | some dv => extractPrimaryDay dv

def buildDays (root : List (String × Val)) : List String → Except PyErr (List (String × Val))
  | [] => .ok []
  | wk :: rest =>
    match dayRecord root wk with
    | .error e => .error e
    | .ok r =>
      match buildDays root rest with
      | .error e => .error e
      | .ok rs => .ok ((wk, r) :: rs)

def buildWeek (root : List (String × Val)) (o : Nat) :
    Except PyErr (List (String × Val)) :=
  buildDays root (weekKeys o)

/-- `.get` receiver must be a dict. -/
def asDictE (v : Val) : Except PyErr (List (String × Val)) :=
  match v with
  | .vdict d => pure d
  | _ => throw .attributeError

/-- `needle` is a prefix of `hay`. -/
def isPre : List Char → List Char → Bool
  | [], _ => true
  | _ :: _, [] => false
  | a :: as, b :: bs => a = b && isPre as bs

/-- `needle` occurs as a contiguous subsequence of `hay` (string `in`). -/
def containsSeq : List Char → List Char → Bool
  | hay, [] => (hay.isEmpty || true)
  | [], _ :: _ => false
  | h :: rest, n :: ns => isPre (n :: ns) (h :: rest) || containsSeq rest (n :: ns)

/-- Python `k in v`: dict key test, substring test for strings, membership
for lists, TypeError otherwise. -/
def pyInKey (k : String) (v : Val) : Except PyErr Bool :=
  match v with
  | .vdict d => .ok (dictLookup d k).isSome
  | .vstr s => .ok (containsSeq s.data k.data)
  | .vlist xs => .ok (xs.any (fun x => match x with | .vstr t => decide (t = k) | _ => false))
  | _ => .error .typeError

def infoSid (ai : List (String × Val)) : Except PyErr Val :=
  let s1 := dictGetD ai "stravnikid" .vnone
  if truthy s1 then .ok s1
  else
    match asDictE (pyOr (dictGetD ai "strRow" (.vdict [])) (.vdict [])) with
    | .error e => .error e
    | .ok sr => .ok (dictGetD sr "stravnikid" .vnone)

def infoCredit (ai : List (String × Val)) : Except PyErr Val :=
  match dictGetD ai "kredit" .vnone with
  | .vnone =>
    match asDictE (pyOr (dictGetD ai "info2" .vnone) (.vdict [])) with
    | .error e => .error e
    | .ok i2 => .ok (dictGetD i2 "kredit" .vnone)
  | k => .ok k

def userEntry (strRow : Val) (fld outKey : String) (has : Bool) :
    Except PyErr (List (String × Val)) :=
  if has then
    match asDictE strRow with
    | .error e => .error e
    | .ok sr => .ok [(outKey, dictGetD sr fld .vnone)]
  else .ok []

def infoUser (strRow : Val) : Except PyErr (List (String × Val)) :=
  if truthy strRow = false then .ok []
  else
    match pyInKey "meno" strRow with
    | .error e => .error e
    | .ok hasMeno =>
      match userEntry strRow "meno" "name" hasMeno with
      | .error e => .error e
      | .ok namePart =>
        match pyInKey "priezvisko" strRow with
        | .error e => .error e
        | .ok hasPriez =>
          match userEntry strRow "priezvisko" "surname" hasPriez with
          | .error e => .error e
          | .ok surPart =>
            let user := namePart ++ surPart
            .ok (if user.isEmpty then ([] : List (String × Val))
                 else [("user", .vdict user)])

/-- Lines 331-357: the `info` sub-structure (None when the addInfo section
is absent/falsy, in which case no "info" key is emitted at all). -/
def infoExtract (root : List (String × Val)) : Except PyErr (Option Val) :=
  let addInfo := pyOr (pyOr ((dictLookup root "addInfo").getD .vnone)
                           ((dictLookup root "addinfo").getD .vnone)) (.vdict [])
  if truthy addInfo = false then
    .ok Option.none
  else
    match asDictE addInfo with
    | .error e => .error e
    | .ok ai =>
      match infoSid ai with
      | .error e => .error e
      | .ok sid =>
        let idPart : List (String × Val) :=
          match sid with
          | .vnone => []
          | s => [("id", match pyInt s with
                         | some n => .vnum ((n : Int) : ℚ)
                         | Option.none => .vnone)]
        match infoCredit ai with
        | .error e => .error e
        | .ok credit =>
          match asDictE (pyOr (dictGetD ai "info2" .vnone) (.vdict [])) with
          | .error e => .error e
          | .ok i2b =>
            let days := dictGetD i2b "pocetDni" .vnone
            match infoUser (pyOr (dictGetD ai "strRow" .vnone) (.vdict [])) with
            | .error e => .error e
            | .ok userPart =>
              .ok (some (.vdict (idPart ++ [("credit", credit), ("days", days)] ++ userPart)))

/-- The result dict of `get_meals` given the located payload root and the
reference date's ordinal: the five normalized week days (insertion order),
then the optional "info" key. -/
def getMealsModel (root : List (String × Val)) (o : Nat) :
    Except PyErr (List (String × Val)) :=
  match buildWeek root o with
  | .error e => .error e
  | .ok week =>
    match infoExtract root with
    | .error e => .error e
    | .ok inf =>
      .ok (week ++ (match inf with
                    | some i => [("info", i)]
                    | Option.none => []))

/-! ## `Meal.choose` (lines 105-110) -/

/-- Python string indexing with negative-index wraparound. -/
def pyStrIndex (s : String) (i : Int) : Option Char :=
  let n : Int := (s.length : Int)
  if 0 ≤ i ∧ i < n then s.data.get? i.toNat
  else if -n ≤ i ∧ i < 0 then s.data.get? (i + n).toNat
  else Option.none

def chooseLetters : String := "ABCDEFGH"

/-- Outcome of `Meal.choose(edupage, number)`: either the indexing raises
before any request is issued, or the letter is submitted and the server
response decides between failure and setting `ordered_meal` to the letter. -/
inductive ChooseOutcome where
  | indexError : ChooseOutcome
  | requestFailed (letter : Char) : ChooseOutcome
  | chosen (letter : Char) : ChooseOutcome
deriving Repr, DecidableEq

/-- `letters[number - 1]`, then `__make_choice` and the `ordered_meal`
assignment (the server's accept/reject is abstracted as `serverOk`). -/
def chooseModel (number : Int) (serverOk : Bool) : ChooseOutcome :=
  match pyStrIndex chooseLetters (number - 1) with
  | Option.none => .indexError
  | some c => if serverOk then .chosen c else .requestFailed c

/-! ## Heap model for the frame/ownership claim

The pure value model above cannot express mutation, so the aliasing claim
(deep copies protect the caller's payload from the in-place `update`,
`pop("nevarisa")` and record construction) is settled on an explicit store:
dicts and lists live at addresses, scalars are immediate.  `_extract_primary_day`
is re-embedded as a store transformer whose only writes are the real ones of
the source: the `merged.update(...)` overlays and the `merged.pop("nevarisa")`
(both targeting the freshly deep-copied accumulator) plus allocation of the
fresh output record (the source's `out`/`menus_out`/`reviews_out` literals,
collapsed to allocating the finished record, which touches no old address
either). -/

/-- Heap value: scalars are immediate, dicts/lists are references. -/
inductive HVal where
  | href (a : Nat) : HVal
  | hstr (s : String) : HVal
  | hnum (q : ℚ) : HVal
  | hbool (b : Bool) : HVal
  | hnone : HVal
deriving Repr, DecidableEq

/-- Heap object (a mutable container). -/
inductive HObj where
  | hdict (kvs : List (String × HVal)) : HObj
  | hlist (xs : List HVal) : HObj
deriving Repr, DecidableEq

structure Heap where
  mem : Nat → Option HObj
  next : Nat

/-- Every address at or above the bump pointer is unallocated. -/
def Heap.wf (h : Heap) : Prop := ∀ a, h.next ≤ a → h.mem a = Option.none

def Heap.write (h : Heap) (a : Nat) (o : HObj) : Heap :=
  ⟨fun b => if b = a then some o else h.mem b, h.next⟩

def Heap.alloc (h : Heap) (o : HObj) : Heap × Nat :=
  (⟨fun b => if b = h.next then some o else h.mem b, h.next + 1⟩, h.next)

/-- `h2` extends `h1`: same content below `h1.next`, possibly more above. -/
def FrameLe (h1 h2 : Heap) : Prop :=
  h1.next ≤ h2.next ∧ ∀ a, a < h1.next → h2.mem a = h1.mem a

theorem FrameLe.refl (h : Heap) : FrameLe h h :=
  ⟨le_refl _, fun _ _ => rfl⟩

theorem FrameLe.trans {h1 h2 h3 : Heap} (a : FrameLe h1 h2) (b : FrameLe h2 h3) :
    FrameLe h1 h3 :=
  ⟨le_trans a.1 b.1, fun x hx => (b.2 x (lt_of_lt_of_le hx a.1)).trans (a.2 x hx)⟩

theorem FrameLe.alloc (h : Heap) (o : HObj) : FrameLe h (h.alloc o).1 := by
  refine ⟨Nat.le_succ _, fun a ha => ?_⟩
  simp only [Heap.alloc]
  rw [if_neg (fun hh : a = h.next => absurd hh (Nat.ne_of_lt ha))]

theorem FrameLe.write {h0 h1 : Heap} (f : FrameLe h0 h1) {m : Nat}
    (hm : h0.next ≤ m) (o : HObj) : FrameLe h0 (h1.write m o) := by
  refine ⟨f.1, fun a ha => ?_⟩
  simp only [Heap.write]
  rw [if_neg (fun hh : a = m => absurd (hh ▸ ha) (not_lt_of_le hm))]
  exact f.2 a ha

/-- Association-list helpers over heap values (same shapes as the pure ones). -/
def hLookup : List (String × HVal) → String → Option HVal
  | [], _ => Option.none
  | p :: rest, k => if p.1 = k then some p.2 else hLookup rest k

def hUpsert : List (String × HVal) → String → HVal → List (String × HVal)
  | [], k, v => [(k, v)]
  | p :: rest, k, v => if p.1 = k then (k, v) :: rest else p :: hUpsert rest k v

def hUpdate (d e : List (String × HVal)) : List (String × HVal) :=
  e.foldl (fun acc p => hUpsert acc p.1 p.2) d

def hPop (kvs : List (String × HVal)) (k : String) : List (String × HVal) :=
  kvs.filter (fun p => p.1 ≠ k)

/-- Sequence a store transformer over a list. -/
def stSeq {α β : Type} (rec : Heap → α → Option (Heap × β)) :
    Heap → List α → Option (Heap × List β)
  | h, [] => some (h, [])
  | h, x :: xs =>
    match rec h x with
    | some (h1, y) =>
      match stSeq rec h1 xs with
      | some (h2, ys) => some (h2, y :: ys)
      | Option.none => Option.none
    | Option.none => Option.none

/-- `copy.deepcopy`: scalars are returned as-is, containers are copied
recursively into fresh addresses (fuelled to sidestep cyclic stores). -/
def dcV : Nat → Heap → HVal → Option (Heap × HVal)
  | 0, _, _ => Option.none
  | fuel + 1, h, .href a =>
    (match h.mem a with
     | some (.hdict kvs) =>
       match stSeq (dcV fuel) h (kvs.map Prod.snd) with
       | some (h1, vs) =>
         some ((h1.alloc (.hdict ((kvs.map Prod.fst).zip vs))).1,
               .href (h1.alloc (.hdict ((kvs.map Prod.fst).zip vs))).2)
       | Option.none => Option.none
     | some (.hlist xs) =>
       match stSeq (dcV fuel) h xs with
       | some (h1, ys) =>
         some ((h1.alloc (.hlist ys)).1, .href (h1.alloc (.hlist ys)).2)
       | Option.none => Option.none
     | Option.none => Option.none)
  | _ + 1, h, v => some (h, v)

/-- Allocate a pure output value as a tree of fresh heap objects. -/
def haV : Nat → Heap → Val → Option (Heap × HVal)
  | 0, _, _ => Option.none
  | fuel + 1, h, .vlist xs =>
    (match stSeq (haV fuel) h xs with
     | some (h1, ys) =>
       some ((h1.alloc (.hlist ys)).1, .href (h1.alloc (.hlist ys)).2)
     | Option.none => Option.none)
  | fuel + 1, h, .vdict kvs =>
    (match stSeq (haV fuel) h (kvs.map Prod.snd) with
     | some (h1, vs) =>
       some ((h1.alloc (.hdict ((kvs.map Prod.fst).zip vs))).1,
             .href (h1.alloc (.hdict ((kvs.map Prod.fst).zip vs))).2)
     | Option.none => Option.none)
  | _ + 1, h, .vnone => some (h, .hnone)
  | _ + 1, h, .vbool b => some (h, .hbool b)
  | _ + 1, h, .vnum q => some (h, .hnum q)
  | _ + 1, h, .vstr s => some (h, .hstr s)

/-- Read a heap value back as a pure value (a "read of the payload"). -/
def snapL (rec : HVal → Option Val) : List HVal → Option (List Val)
  | [] => some []
  | x :: xs =>
    match rec x with
    | some v =>
      match snapL rec xs with
      | some vs => some (v :: vs)
      | Option.none => Option.none
    | Option.none => Option.none

def snapV : Nat → Heap → HVal → Option Val
  | 0, _, _ => Option.none
  | fuel + 1, h, .href a =>
    (match h.mem a with
     | some (.hdict kvs) =>
       match snapL (snapV fuel h) (kvs.map Prod.snd) with
       | some vs => some (.vdict ((kvs.map Prod.fst).zip vs))
       | Option.none => Option.none
     | some (.hlist xs) =>
       match snapL (snapV fuel h) xs with
       | some vs => some (.vlist vs)
       | Option.none => Option.none
     | Option.none => Option.none)
  | _ + 1, _, .hstr s => some (.vstr s)
  | _ + 1, _, .hnum q => some (.vnum q)
  | _ + 1, _, .hbool b => some (.vbool b)
  | _ + 1, _, .hnone => some .vnone

/-- `k in obj and isinstance(obj[k], dict)`: the address of slot `k`. -/
def hSlotAddr (h : Heap) (obj : List (String × HVal)) (k : String) : Option Nat :=
  match hLookup obj k with
  | some (.href a) =>
    match h.mem a with
    | some (.hdict _) => some a
    | _ => Option.none
  | _ => Option.none

/-- The fallback loop of lines 245-247: for each code with a dict slot,
deep-copy it and `merged.update(...)` in place at address `m`. -/
def refDictKVs (h : Heap) (v : HVal) : Option (List (String × HVal)) :=
  match v with
  | .href c =>
    (match h.mem c with
     | some (.hdict kvs) => some kvs
     | _ => Option.none)
  | _ => Option.none

def hMergeLoop (fuel : Nat) (obj : List (String × HVal)) :
    Heap → Nat → List String → Option Heap
  | h, _, [] => some h
  | h, m, k :: ks =>
    match hSlotAddr h obj k with
    | some a =>
      (match dcV fuel h (.href a) with
       | some (h1, cv) =>
         (match refDictKVs h1 cv with
          | some ckvs =>
            (match refDictKVs h1 (.href m) with
             | some mkvs =>
               hMergeLoop fuel obj (h1.write m (.hdict (hUpdate mkvs ckvs))) m ks
             | Option.none => Option.none)
          | Option.none => Option.none)
       | Option.none => Option.none)
    | Option.none => hMergeLoop fuel obj h m ks

/-- `_extract_primary_day` as a store transformer: lines 241-250 operate on
the store (deep copy, in-place overlay, in-place `pop("nevarisa")`), then
the record builder runs on a read-back of the merged slot and its result is
allocated fresh (the source builds it in fresh dict/list literals). -/
def hBuildMerged (fuel : Nat) (h : Heap) (obj : List (String × HVal)) :
    Option (Heap × Nat) :=
  match hSlotAddr h obj "2" with
  | some a =>
    (match dcV fuel h (.href a) with
     | some (hc, .href mm) => some (hc, mm)
     | _ => Option.none)
  | Option.none =>
    (match hMergeLoop fuel obj (h.alloc (.hdict [])).1 (h.alloc (.hdict [])).2
             ["2", "0", "4"] with
     | some hf => some (hf, (h.alloc (.hdict [])).2)
     | Option.none => Option.none)

def hNormOut (fuel : Nat) (h2 : Heap) (m : Nat) : Option (Heap × HVal) :=
  match snapV fuel h2 (.href m) with
  | some (.vdict mkvs) =>
    (match extractFromMerged mkvs with
     | .ok out => haV fuel h2 out
     | .error _ => Option.none)
  | _ => Option.none

def hExtractPrimaryDay (fuel : Nat) (h : Heap) (v : HVal) : Option (Heap × HVal) :=
  match v with
  | .href a0 =>
    (match h.mem a0 with
     | some (.hdict obj) =>
       (match hBuildMerged fuel h obj with
        | some (h1, m) =>
          (match refDictKVs h1 (.href m) with
           | some kvs1 =>
             hNormOut fuel (h1.write m (.hdict (hPop kvs1 "nevarisa"))) m
           | Option.none => Option.none)
        | Option.none => Option.none)
     | _ => haV fuel h notCooking)
  | _ => haV fuel h notCooking

theorem stSeq_frame {α β : Type} {rec : Heap → α → Option (Heap × β)}
    (hrec : ∀ h x h' y, rec h x = some (h', y) → FrameLe h h') :
    ∀ xs h h' ys, stSeq rec h xs = some (h', ys) → FrameLe h h' := by
  intro xs
  induction xs with
  | nil =>
    intro h h' ys hseq
    simp only [stSeq, Option.some.injEq, Prod.mk.injEq] at hseq
    exact hseq.1 ▸ FrameLe.refl h
  | cons x rest ih =>
    intro h h' ys hseq
    simp only [stSeq] at hseq
    split at hseq
    · rename_i h1 y heq
      split at hseq
      · rename_i h2 ys2 heq2
        cases hseq
        exact FrameLe.trans (hrec h x h1 y heq) (ih h1 _ ys2 heq2)
      · exact absurd hseq (by simp)
    · exact absurd hseq (by simp)

theorem dcV_frame : ∀ fuel h v h' v', dcV fuel h v = some (h', v') → FrameLe h h' := by
  intro fuel
  induction fuel with
  | zero => intro h v h' v' hd; exact absurd hd (by simp [dcV])
  | succ n ih =>
    intro h v h' v' hd
    cases v with
    | href a =>
      simp only [dcV] at hd
      cases hm : h.mem a with
      | none => simp only [hm] at hd; exact Option.noConfusion hd
      | some o =>
        simp only [hm] at hd
        cases o with
        | hdict kvs =>
          cases hs : stSeq (dcV n) h (kvs.map Prod.snd) with
          | none => simp only [hs] at hd; exact Option.noConfusion hd
          | some p =>
            obtain ⟨h1, vs⟩ := p
            simp only [hs] at hd
            cases hd
            exact FrameLe.trans (stSeq_frame ih _ _ _ _ hs) (FrameLe.alloc _ _)
        | hlist xs =>
          cases hs : stSeq (dcV n) h xs with
          | none => simp only [hs] at hd; exact Option.noConfusion hd
          | some p =>
            obtain ⟨h1, ys⟩ := p
            simp only [hs] at hd
            cases hd
            exact FrameLe.trans (stSeq_frame ih _ _ _ _ hs) (FrameLe.alloc _ _)
    | hstr s => simp only [dcV] at hd; cases hd; exact FrameLe.refl h
    | hnum q => simp only [dcV] at hd; cases hd; exact FrameLe.refl h
    | hbool b => simp only [dcV] at hd; cases hd; exact FrameLe.refl h
    | hnone => simp only [dcV] at hd; cases hd; exact FrameLe.refl h

theorem dcV_ref_fresh : ∀ fuel h a h' rv, dcV fuel h (.href a) = some (h', rv) →
    ∃ m, rv = .href m ∧ h.next ≤ m := by
  intro fuel h a h' rv hd
  cases fuel with
  | zero => exact absurd hd (by simp [dcV])
  | succ n =>
    simp only [dcV] at hd
    cases hm : h.mem a with
    | none => simp only [hm] at hd; exact Option.noConfusion hd
    | some o =>
      simp only [hm] at hd
      cases o with
      | hdict kvs =>
        cases hs : stSeq (dcV n) h (kvs.map Prod.snd) with
        | none => simp only [hs] at hd; exact Option.noConfusion hd
        | some p =>
          obtain ⟨h1, vs⟩ := p
          simp only [hs] at hd
          cases hd
          exact ⟨h1.next, rfl, (stSeq_frame (fun hh x hh' y => dcV_frame n hh x hh' y) _ _ _ _ hs).1⟩
      | hlist xs =>
        cases hs : stSeq (dcV n) h xs with
        | none => simp only [hs] at hd; exact Option.noConfusion hd
        | some p =>
          obtain ⟨h1, ys⟩ := p
          simp only [hs] at hd
          cases hd
          exact ⟨h1.next, rfl, (stSeq_frame (fun hh x hh' y => dcV_frame n hh x hh' y) _ _ _ _ hs).1⟩

theorem haV_frame : ∀ fuel h v h' r, haV fuel h v = some (h', r) → FrameLe h h' := by
  intro fuel
  induction fuel with
  | zero => intro h v h' r hd; exact absurd hd (by simp [haV])
  | succ n ih =>
    intro h v h' r hd
    cases v with
    | vlist xs =>
      simp only [haV] at hd
      cases hs : stSeq (haV n) h xs with
      | none => simp only [hs] at hd; exact Option.noConfusion hd
      | some p =>
        obtain ⟨h1, ys⟩ := p
        simp only [hs] at hd
        cases hd
        exact FrameLe.trans (stSeq_frame ih _ _ _ _ hs) (FrameLe.alloc _ _)
    | vdict kvs =>
      simp only [haV] at hd
      cases hs : stSeq (haV n) h (kvs.map Prod.snd) with
      | none => simp only [hs] at hd; exact Option.noConfusion hd
      | some p =>
        obtain ⟨h1, vs⟩ := p
        simp only [hs] at hd
        cases hd
        exact FrameLe.trans (stSeq_frame ih _ _ _ _ hs) (FrameLe.alloc _ _)
    | vnone => simp only [haV] at hd; cases hd; exact FrameLe.refl h
    | vbool b => simp only [haV] at hd; cases hd; exact FrameLe.refl h
    | vnum q => simp only [haV] at hd; cases hd; exact FrameLe.refl h
    | vstr s => simp only [haV] at hd; cases hd; exact FrameLe.refl h

theorem hMergeLoop_frame (fuel : Nat) (obj : List (String × HVal)) :
    ∀ ks h0 h m h', FrameLe h0 h → h0.next ≤ m →
      hMergeLoop fuel obj h m ks = some h' → FrameLe h0 h' := by
  intro ks
  induction ks with
  | nil =>
    intro h0 h m h' hf _ hl
    simp only [hMergeLoop] at hl
    cases hl
    exact hf
  | cons k ks ih =>
    intro h0 h m h' hf hm hl
    simp only [hMergeLoop] at hl
    cases hsa : hSlotAddr h obj k with
    | none => simp only [hsa] at hl; exact ih h0 h m h' hf hm hl
    | some a =>
      simp only [hsa] at hl
      cases hdc : dcV fuel h (.href a) with
      | none => simp only [hdc] at hl; exact Option.noConfusion hl
      | some p =>
        obtain ⟨h1, cv⟩ := p
        simp only [hdc] at hl
        cases hck : refDictKVs h1 cv with
        | none => simp only [hck] at hl; exact Option.noConfusion hl
        | some ckvs =>
          simp only [hck] at hl
          cases hmk : refDictKVs h1 (.href m) with
          | none => simp only [hmk] at hl; exact Option.noConfusion hl
          | some mkvs =>
            simp only [hmk] at hl
            exact ih h0 _ m h'
              (FrameLe.write (FrameLe.trans hf (dcV_frame fuel h _ h1 cv hdc)) hm _)
              hm hl

theorem hBuildMerged_frame : ∀ fuel h obj h1 m,
    hBuildMerged fuel h obj = some (h1, m) → FrameLe h h1 ∧ h.next ≤ m := by
  intro fuel h obj h1 m hb
  simp only [hBuildMerged] at hb
  cases hsa : hSlotAddr h obj "2" with
  | some a =>
    simp only [hsa] at hb
    cases hdc : dcV fuel h (.href a) with
    | none => simp only [hdc] at hb; exact Option.noConfusion hb
    | some p =>
      obtain ⟨hc, mv⟩ := p
      simp only [hdc] at hb
      cases mv with
      | href mm =>
        cases hb
        obtain ⟨m2, hrv, hle⟩ := dcV_ref_fresh fuel h a h1 (.href m) hdc
        cases hrv
        exact ⟨dcV_frame fuel h _ h1 _ hdc, hle⟩
      | hstr s => exact Option.noConfusion hb
      | hnum q => exact Option.noConfusion hb
      | hbool b => exact Option.noConfusion hb
      | hnone => exact Option.noConfusion hb
  | none =>
    simp only [hsa] at hb
    cases hml : hMergeLoop fuel obj (h.alloc (.hdict [])).1 (h.alloc (.hdict [])).2
        ["2", "0", "4"] with
    | none => simp only [hml] at hb; exact Option.noConfusion hb
    | some hf =>
      simp only [hml] at hb
      cases hb
      exact ⟨hMergeLoop_frame fuel obj _ h _ _ h1 (FrameLe.alloc _ _) (Nat.le_refl _) hml,
             Nat.le_refl _⟩

theorem hNormOut_frame : ∀ fuel h2 m h' r,
    hNormOut fuel h2 m = some (h', r) → FrameLe h2 h' := by
  intro fuel h2 m h' r he
  simp only [hNormOut] at he
  cases hs : snapV fuel h2 (.href m) with
  | none => simp only [hs] at he; exact Option.noConfusion he
  | some mv =>
    simp only [hs] at he
    cases mv with
    | vdict mkvs =>
      cases ho : extractFromMerged mkvs with
      | ok out => simp only [ho] at he; exact haV_frame fuel h2 out h' r he
      | error e => simp only [ho] at he; exact Option.noConfusion he
    | vnone => exact Option.noConfusion he
    | vbool b => exact Option.noConfusion he
    | vnum q => exact Option.noConfusion he
    | vstr s => exact Option.noConfusion he
    | vlist xs => exact Option.noConfusion he

theorem hExtract_frame : ∀ fuel h v h' r,
    hExtractPrimaryDay fuel h v = some (h', r) → FrameLe h h' := by
  intro fuel h v h' r he
  cases v with
  | href a0 =>
    simp only [hExtractPrimaryDay] at he
    cases hm : h.mem a0 with
    | none => simp only [hm] at he; exact haV_frame fuel h notCooking h' r he
    | some o =>
      simp only [hm] at he
      cases o with
      | hlist xs => exact haV_frame fuel h notCooking h' r he
      | hdict obj =>
        cases hb : hBuildMerged fuel h obj with
        | none => simp only [hb] at he; exact Option.noConfusion he
        | some p =>
          obtain ⟨h1, m⟩ := p
          simp only [hb] at he
          cases hk : refDictKVs h1 (.href m) with
          | none => simp only [hk] at he; exact Option.noConfusion he
          | some kvs1 =>
            simp only [hk] at he
            obtain ⟨hf1, hm1⟩ := hBuildMerged_frame fuel h obj h1 m hb
            exact FrameLe.trans (FrameLe.write hf1 hm1 _) (hNormOut_frame fuel _ m h' r he)
  | hstr s => simp only [hExtractPrimaryDay] at he; exact haV_frame fuel h notCooking h' r he
  | hnum q => simp only [hExtractPrimaryDay] at he; exact haV_frame fuel h notCooking h' r he
  | hbool b => simp only [hExtractPrimaryDay] at he; exact haV_frame fuel h notCooking h' r he
  | hnone => simp only [hExtractPrimaryDay] at he; exact haV_frame fuel h notCooking h' r he

theorem snapL_mono {rec1 rec2 : HVal → Option Val}
    (hrec : ∀ x s, rec1 x = some s → rec2 x = some s) :
    ∀ xs ss, snapL rec1 xs = some ss → snapL rec2 xs = some ss := by
  intro xs
  induction xs with
  | nil => intro ss hs; exact hs
  | cons x rest ih =>
    intro ss hs
    simp only [snapL] at hs ⊢
    cases hx : rec1 x with
    | none => simp only [hx] at hs; exact Option.noConfusion hs
    | some v =>
      simp only [hx] at hs
      cases hrest : snapL rec1 rest with
      | none => simp only [hrest] at hs; exact Option.noConfusion hs
      | some vs =>
        simp only [hrest] at hs
        simp only [hrec x v hx, ih vs hrest]
        exact hs

theorem snapV_stable : ∀ fuel h1 h2 v s, Heap.wf h1 → FrameLe h1 h2 →
    snapV fuel h1 v = some s → snapV fuel h2 v = some s := by
  intro fuel
  induction fuel with
  | zero => intro h1 h2 v s _ _ hs; exact absurd hs (by simp [snapV])
  | succ n ih =>
    intro h1 h2 v s hwf hfr hs
    cases v with
    | href a =>
      simp only [snapV] at hs ⊢
      cases hm : h1.mem a with
      | none => simp only [hm] at hs; exact Option.noConfusion hs
      | some o =>
        have ha : a < h1.next := by
          by_contra hge
          have hno := hwf a (Nat.le_of_not_lt hge)
          rw [hno] at hm
          exact Option.noConfusion hm
        have hm2 : h2.mem a = some o := by rw [hfr.2 a ha]; exact hm
        simp only [hm] at hs
        simp only [hm2]
        cases o with
        | hdict kvs =>
          cases hl : snapL (snapV n h1) (kvs.map Prod.snd) with
          | none => simp only [hl] at hs; exact Option.noConfusion hs
          | some vs =>
            simp only [hl] at hs
            simp only [snapL_mono (fun x t hx => ih h1 h2 x t hwf hfr hx) _ vs hl]
            exact hs
        | hlist xs =>
          cases hl : snapL (snapV n h1) xs with
          | none => simp only [hl] at hs; exact Option.noConfusion hs
          | some vs =>
            simp only [hl] at hs
            simp only [snapL_mono (fun x t hx => ih h1 h2 x t hwf hfr hx) _ vs hl]
            exact hs
    | hstr t => exact hs
    | hnum q => exact hs
    | hbool b => exact hs
    | hnone => exact hs

/-! ## Claim theorems -/

/-- First-some choice (Python evaluation of overlay precedence). -/
def orO (x y : Option Val) : Option Val :=
  match x with
  | some v => some v
  | Option.none => y

theorem orO_none_right (x : Option Val) : orO x Option.none = x := by
  cases x <;> rfl

theorem orO_assoc (x y z : Option Val) :
    orO (orO x y) z = orO x (orO y z) := by
  cases x <;> rfl

theorem lookup_append (xs ys : List (String × Val)) (k : String) :
    dictLookup (xs ++ ys) k = orO (dictLookup xs k) (dictLookup ys k) := by
  induction xs with
  | nil => rfl
  | cons p rest ih =>
    by_cases hp : p.1 = k
    · simp [dictLookup, hp, orO]
    · simp [dictLookup, hp, ih]

/-- The binding a whole sequence of Python dict-item writes leaves for `k`:
the LAST occurrence of `k` wins. -/
def lastLookup (kvs : List (String × Val)) (k : String) : Option Val :=
  dictLookup kvs.reverse k

theorem lookup_dictUpdate (e : List (String × Val)) :
    ∀ a k, dictLookup (dictUpdate a e) k = orO (lastLookup e k) (dictLookup a k) := by
  induction e with
  | nil => intro a k; simp [dictUpdate, lastLookup, dictLookup, orO]
  | cons p rest ih =>
    intro a k
    have hstep : dictUpdate a (p :: rest) = dictUpdate (upsert a p.1 p.2) rest := rfl
    rw [hstep, ih]
    have hlast : lastLookup (p :: rest) k =
        orO (lastLookup rest k) (if p.1 = k then some p.2 else Option.none) := by
      simp only [lastLookup, List.reverse_cons, lookup_append]
      rfl
    rw [hlast, orO_assoc]
    congr 1
    rw [lookup_upsert]
    by_cases hk : k = p.1
    · simp [hk, orO]
    · have hk2 : ¬ p.1 = k := fun hh => hk hh.symm
      simp [hk, hk2, orO]

/-- What slot code `c` contributes for field `k` in the fallback overlay. -/
def slotLast (obj : List (String × Val)) (c k : String) : Option Val :=
  match slotDict obj c with
  | some d => lastLookup d k
  | Option.none => Option.none

/-- C1.  Slot merging in day normalization: if key "2" is present and maps
to a dict, the merged slot is (a deep copy of) exactly that record, all
other codes ignored; otherwise codes "2", "0", "4" are overlaid in that
fixed order onto an empty accumulator, a later code's binding overwriting
an earlier one's for the same field name (within one code's record, its
last binding for a field is what lands). -/
theorem c1_slot_merging (obj : List (String × Val)) :
    (∀ d2, dictLookup obj "2" = some (.vdict d2) → mergeSlots obj = d2) ∧
    (slotDict obj "2" = Option.none →
      ∀ k, dictLookup (mergeSlots obj) k =
        orO (slotLast obj "4" k) (orO (slotLast obj "0" k) (slotLast obj "2" k))) := by
  constructor
  · intro d2 h2
    simp [mergeSlots, slotDict, h2]
  · intro hn k
    simp only [mergeSlots, hn, List.foldl]
    have h2 : slotLast obj "2" k = Option.none := by simp [slotLast, hn]
    rw [h2, orO_none_right]
    cases h0 : slotDict obj "0" with
    | none =>
      cases h4 : slotDict obj "4" with
      | none => simp [hn, h0, h4, dictLookup, slotLast, orO]
      | some d4 =>
        simp only [hn, h0, h4, slotLast, lookup_dictUpdate]
        cases hl : lastLookup d4 k <;> simp [dictLookup, orO, hl]
    | some d0 =>
      cases h4 : slotDict obj "4" with
      | none =>
        simp only [hn, h0, h4, slotLast, lookup_dictUpdate]
        cases hl : lastLookup d0 k <;> simp [dictLookup, orO, hl]
      | some d4 =>
        simp only [hn, h0, h4, slotLast, lookup_dictUpdate]
        simp [dictLookup, orO_none_right]

def c1exclObj : List (String × Val) :=
  [("2", Val.vdict [("isCooking", Val.vbool true), ("x", Val.vnum 1)]),
   ("0", Val.vdict [("isCooking", Val.vbool true), ("y", Val.vnum 2)])]

def c1fbObj : List (String × Val) :=
  [("0", Val.vdict [("isCooking", Val.vbool true), ("a", Val.vnum 1)]),
   ("4", Val.vdict [("a", Val.vnum 2), ("b", Val.vnum 3)])]

theorem c1_slot_merging_witness :
    mergeSlots c1exclObj = [("isCooking", Val.vbool true), ("x", Val.vnum 1)] ∧
    dictLookup (mergeSlots c1fbObj) "a" =
      orO (slotLast c1fbObj "4" "a")
          (orO (slotLast c1fbObj "0" "a") (slotLast c1fbObj "2" "a")) :=
  ⟨(c1_slot_merging c1exclObj).1 _ rfl, (c1_slot_merging c1fbObj).2 rfl "a"⟩

theorem buildDays_found (root : List (String × Val)) :
    ∀ ks res, buildDays root ks = .ok res →
      ∀ wk, wk ∈ ks → ∃ r, dayRecord root wk = .ok r ∧ dictLookup res wk = some r := by
  intro ks
  induction ks with
  | nil => intro res h wk hm; exact absurd hm (List.not_mem_nil wk)
  | cons k rest ih =>
    intro res h wk hm
    simp only [buildDays] at h
    cases hd : dayRecord root k with
    | error e => simp only [hd] at h; exact Except.noConfusion h
    | ok r =>
      simp only [hd] at h
      cases hb : buildDays root rest with
      | error e => simp only [hb] at h; exact Except.noConfusion h
      | ok rs =>
        simp only [hb] at h
        cases h
        by_cases hkw : k = wk
        · subst hkw
          exact ⟨r, hd, by simp [dictLookup]⟩
        · rcases List.mem_cons.mp hm with hw | hw
          · exact absurd hw.symm hkw
          · obtain ⟨r2, hr2, hl2⟩ := ih rs hb wk hw
            refine ⟨r2, hr2, ?_⟩
            simp only [dictLookup, if_neg hkw]
            exact hl2

theorem extract_not_cooking (obj : List (String × Val))
    (hf : truthy (dictGetD (dictPop (mergeSlots obj) "nevarisa") "isCooking" .vnone) = false) :
    extractPrimaryDay (.vdict obj) = .ok notCooking := by
  simp [extractPrimaryDay, extractFromMerged, hf]

/-- C2.  Not-cooking collapse: a week date absent from the payload root, or
a day whose merged slot's cooking flag is absent or falsy, normalizes to
exactly `{"isCooking": False}` (that one-key record and nothing else),
regardless of any other populated fields. -/
theorem c2_not_cooking_collapse :
    (∀ obj : List (String × Val),
      truthy (dictGetD (dictPop (mergeSlots obj) "nevarisa") "isCooking" .vnone) = false →
      extractPrimaryDay (.vdict obj) = .ok notCooking) ∧
    (∀ (root : List (String × Val)) (o : Nat) (res : List (String × Val)) (wk : String),
      buildWeek root o = .ok res → wk ∈ weekKeys o →
      (dictLookup root wk = Option.none ∨ dictLookup root wk = some .vnone) →
      dictLookup res wk = some notCooking) ∧
    (∀ (root : List (String × Val)) (o : Nat) (res : List (String × Val)) (wk : String)
       (obj : List (String × Val)),
      buildWeek root o = .ok res → wk ∈ weekKeys o →
      dictLookup root wk = some (.vdict obj) →
      truthy (dictGetD (dictPop (mergeSlots obj) "nevarisa") "isCooking" .vnone) = false →
      dictLookup res wk = some notCooking) ∧
    notCooking = .vdict [("isCooking", .vbool false)] := by
  refine ⟨fun obj hf => extract_not_cooking obj hf, ?_, ?_, rfl⟩
  · intro root o res wk hb hm hcond
    obtain ⟨r, hr, hl⟩ := buildDays_found root (weekKeys o) res hb wk hm
    have hnc : dayRecord root wk = .ok notCooking := by
      rcases hcond with hc | hc <;> simp [dayRecord, hc]
    cases hnc.symm.trans hr
    exact hl
  · intro root o res wk obj hb hm hlook hf
    obtain ⟨r, hr, hl⟩ := buildDays_found root (weekKeys o) res hb wk hm
    have hnc : dayRecord root wk = .ok notCooking := by
      simp [dayRecord, hlook, extract_not_cooking obj hf]
    cases hnc.symm.trans hr
    exact hl

def c2obj : List (String × Val) :=
  [("2", .vdict [("isCooking", .vbool false), ("nazov", .vstr "X"),
    ("menus", .vdict [("1", .vdict [("rows", .vlist [.vdict [("nazov", .vstr "Polievka")]])])])])]

def c2wres : List (String × Val) :=
  [("2024-10-07", notCooking), ("2024-10-08", notCooking), ("2024-10-09", notCooking),
   ("2024-10-10", notCooking), ("2024-10-11", notCooking)]

theorem c2_witness :
    extractPrimaryDay (.vdict c2obj) = .ok notCooking ∧
    dictLookup c2wres "2024-10-07" = some notCooking :=
  ⟨c2_not_cooking_collapse.1 c2obj (by decide),
   c2_not_cooking_collapse.2.1 [] 739168 c2wres "2024-10-07" (by rfl)
     (by decide) (Or.inl rfl)⟩

def c3day : Val :=
  .vdict [("2", .vdict [("isCooking", .vbool true),
    ("hodnotenia", .vdict [("1", .vlist [.vdict [("pocet", .vnum 5)]])])])]

/-- C3 counterexample.  For the cooking day whose menu-1 rating list is the
single entry `{"pocet": 5}` (no `priemer` at all, so the filtered list is
empty), the emitted review summary is `{"average": -1, "amount": 5}` - the
amount is still read from the first raw entry, so the summary is NOT the
`{average: -1.0, amount: 0}` sentinel the claim requires (5 ≠ 0). -/
theorem c3_counterexample :
    extractPrimaryDay c3day = .ok (.vdict [("isCooking", .vbool true),
      ("menus", .vdict [("1", .vlist []), ("2", .vlist [])]),
      ("reviews", .vdict [("1", reviewVal (-1) 5), ("2", reviewVal (-1) 0)])]) ∧
    (5 : ℚ) ≠ 0 :=
  ⟨rfl, by norm_num⟩

/-- Whether `arr and isinstance(arr, list) and len(arr) > 0` holds. -/
def isNonemptyList : Val → Bool
  | .vlist (_ :: _) => true
  | _ => false

/-- C3 amended.  The full `{average: -1, amount: 0}` sentinel is produced
exactly when the raw rating value fails the guard (absent/None, falsy,
not a list, or an empty list).  When the list is non-empty but filtering
leaves no usable `priemer`, only the average falls back to -1: the amount
is still taken from the first raw entry's `pocet` (0 when that is absent
or unconvertible). -/
theorem c3_rating_sentinel_amended :
    (∀ arr : Val, isNonemptyList arr = false → aggregate arr = .ok (-1, 0)) ∧
    (∀ (x : Val) (xs : List Val), prFilter (x :: xs) = .ok [] →
      aggregate (.vlist (x :: xs)) = .ok (-1, firstAmount (x :: xs))) := by
  constructor
  · intro arr hne
    cases arr with
    | vlist xs =>
      cases xs with
      | nil => rfl
      | cons x rest => exact absurd hne (by simp [isNonemptyList])
    | vnone => rfl
    | vbool b => rfl
    | vnum q => rfl
    | vstr s => rfl
    | vdict kvs => rfl
  · intro x xs hf
    simp [aggregate, hf]

theorem c3_amended_witness :
    aggregate (.vlist [.vdict [("pocet", .vnum 5)]]) = .ok (-1, 5) ∧
    aggregate .vnone = .ok (-1, 0) ∧
    aggregate (.vlist []) = .ok (-1, 0) :=
  ⟨c3_rating_sentinel_amended.2 (.vdict [("pocet", .vnum 5)]) [] (by rfl),
   c3_rating_sentinel_amended.1 .vnone (by rfl),
   c3_rating_sentinel_amended.1 (.vlist []) (by rfl)⟩

def c4entries : List Val :=
  [.vdict [("priemer", .vstr "4.0"), ("pocet", .vnum 5)],
   .vdict [("priemer", .vstr "5.0"), ("pocet", .vnum 9)]]

/-- C4.  When filtering leaves a non-empty list of parsed averages, the
summary's average is the arithmetic mean of those values rounded to two
decimals, and the amount is `int(first raw entry's pocet)` with default 0
(`firstAmount`), never a sum across entries.  On the spec's example the
result is `{average: 4.5, amount: 5}` (amount from the first entry only). -/
theorem c4_rating_aggregation :
    (∀ (x : Val) (xs : List Val) (qs : List ℚ),
      prFilter (x :: xs) = .ok qs → qs ≠ [] →
      aggregate (.vlist (x :: xs)) =
        .ok (round2 (qs.sum / (qs.length : ℚ)), firstAmount (x :: xs))) ∧
    (∀ (d : List (String × Val)) (rest : List Val),
      firstAmount (.vdict d :: rest) = (pyInt (dictGetD d "pocet" (.vnum 0))).getD 0) ∧
    aggregate (.vlist c4entries) = .ok ((4.5 : ℚ), 5) ∧
    prFilter c4entries = .ok [4, 5] ∧
    round2 ((4 + 5) / 2) = (4.5 : ℚ) := by
  refine ⟨?_, fun d rest => rfl, by with_unfolding_all decide, by with_unfolding_all decide,
    by with_unfolding_all decide⟩
  intro x xs qs hf hne
  simp [aggregate, hf, hne]

theorem c4_witness :
    aggregate (.vlist c4entries) =
      .ok (round2 (([4, 5] : List ℚ).sum / ((([4, 5] : List ℚ).length : Nat) : ℚ)),
           firstAmount c4entries) :=
  c4_rating_aggregation.1 _ _ [4, 5] (by with_unfolding_all decide) (by decide)

/-- C5.  Weight coercion scans `hmotnostiStr`, `hmotnostStr`, `hmotnosti`,
`hmotnost` in that fixed order, takes the first key present with a non-None
value, converts it by trim → float parse → integer truncation, and yields 0
when nothing is found or that single conversion fails; a failing first key
never falls through to a later key. -/
theorem c5_weight_coercion :
    (∀ rd, findWeightVal rd weightKeys = Option.none → coerceWeight rd = 0) ∧
    (∀ rd v, findWeightVal rd weightKeys = some v →
      coerceWeight rd = (pyWeightConv v).getD 0) ∧
    coerceWeight [("hmotnostiStr", .vstr "150.0")] = 150 ∧
    coerceWeight [("hmotnostiStr", .vstr "abc")] = 0 ∧
    coerceWeight [("hmotnostiStr", .vstr "abc"), ("hmotnostStr", .vstr "7")] = 0 ∧
    coerceWeight [] = 0 ∧
    coerceWeight [("hmotnost", .vstr "1"), ("hmotnostiStr", .vstr "2")] = 2 ∧
    coerceWeight [("hmotnostiStr", .vnone), ("hmotnostStr", .vstr "7.9")] = 7 := by
  refine ⟨?_, ?_, by with_unfolding_all decide, by with_unfolding_all decide,
    by with_unfolding_all decide, by decide, by with_unfolding_all decide,
    by with_unfolding_all decide⟩
  · intro rd h
    simp [coerceWeight, h]
  · intro rd v h
    simp [coerceWeight, h]

theorem c5_witness :
    coerceWeight [("hmotnosti", .vnum (31/2))] = (pyWeightConv (.vnum (31/2))).getD 0 ∧
    coerceWeight [("x", .vnum 3)] = 0 :=
  ⟨c5_weight_coercion.2.1 _ (.vnum (31/2)) (by rfl),
   c5_weight_coercion.1 _ (by rfl)⟩

theorem buildDays_keys (root : List (String × Val)) :
    ∀ ks res, buildDays root ks = .ok res → res.map Prod.fst = ks := by
  intro ks
  induction ks with
  | nil =>
    intro res h
    simp only [buildDays] at h
    cases h
    rfl
  | cons k rest ih =>
    intro res h
    simp only [buildDays] at h
    cases hd : dayRecord root k with
    | error e => simp only [hd] at h; exact Except.noConfusion h
    | ok r =>
      simp only [hd] at h
      cases hb : buildDays root rest with
      | error e => simp only [hb] at h; exact Except.noConfusion h
      | ok rs =>
        simp only [hb] at h
        cases h
        simp [ih rs hb]

theorem lookup_isSome_of_mem_keys :
    ∀ (kvs : List (String × Val)) (wk : String),
      wk ∈ kvs.map Prod.fst → (dictLookup kvs wk).isSome := by
  intro kvs
  induction kvs with
  | nil => intro wk h; exact absurd h (List.not_mem_nil wk)
  | cons p rest ih =>
    intro wk h
    by_cases hp : p.1 = wk
    · simp [dictLookup, hp]
    · simp only [dictLookup, if_neg hp]
      rcases List.mem_cons.mp h with hw | hw
      · exact absurd hw.symm hp
      · exact ih wk hw

/-- C6.  The per-day keys of the `get_meals` result are exactly the five
consecutive dates Monday..Friday of the reference date's week (Monday =
reference minus its weekday index), each "YYYY-MM-DD"-formatted, in that
ascending order, and every one of the five is present in the result (the
only other possible key is the trailing "info" section). -/
theorem c6_week_keys (root : List (String × Val)) (o : Nat) (res : List (String × Val))
    (ho : 1 ≤ o) (hres : getMealsModel root o = .ok res) :
    (res.map Prod.fst = weekKeys o ∨ res.map Prod.fst = weekKeys o ++ ["info"]) ∧
    weekKeys o = [fmtOrdinal (mondayOf o), fmtOrdinal (mondayOf o + 1),
      fmtOrdinal (mondayOf o + 2), fmtOrdinal (mondayOf o + 3),
      fmtOrdinal (mondayOf o + 4)] ∧
    mondayOf o = o - pyWeekday o ∧ pyWeekday (mondayOf o) = 0 ∧
    mondayOf o ≤ o ∧ o < mondayOf o + 7 ∧
    (∀ wk, wk ∈ weekKeys o → (dictLookup res wk).isSome) := by
  simp only [getMealsModel] at hres
  cases hb : buildWeek root o with
  | error e => simp only [hb] at hres; exact Except.noConfusion hres
  | ok week =>
    simp only [hb] at hres
    cases hi : infoExtract root with
    | error e => simp only [hi] at hres; exact Except.noConfusion hres
    | ok inf =>
      simp only [hi] at hres
      cases hres
      have hk : week.map Prod.fst = weekKeys o := buildDays_keys root (weekKeys o) week hb
      have hrange : List.range 5 = [0, 1, 2, 3, 4] := by decide
      refine ⟨?_, ?_, rfl, ?_, ?_, ?_, ?_⟩
      · cases inf with
        | none => left; simpa using hk
        | some i => right; simp [hk]
      · simp [weekKeys, hrange]
      · simp only [mondayOf, pyWeekday]
        omega
      · simp only [mondayOf, pyWeekday]
        omega
      · simp only [mondayOf, pyWeekday]
        omega
      · intro wk hwk
        have hw : (dictLookup week wk).isSome :=
          lookup_isSome_of_mem_keys week wk (by rw [hk]; exact hwk)
        cases inf with
        | none => simpa using hw
        | some i =>
          rw [lookup_append]
          cases hlw : dictLookup week wk with
          | none => rw [hlw] at hw; exact absurd hw (by simp)
          | some r => simp [orO]

def c6root : List (String × Val) := []

def c6res : List (String × Val) :=
  [("2024-10-07", notCooking), ("2024-10-08", notCooking), ("2024-10-09", notCooking),
   ("2024-10-10", notCooking), ("2024-10-11", notCooking)]

theorem c6_witness :
    (c6res.map Prod.fst = weekKeys 739168 ∨
       c6res.map Prod.fst = weekKeys 739168 ++ ["info"]) ∧
    weekKeys 739168 = [fmtOrdinal (mondayOf 739168), fmtOrdinal (mondayOf 739168 + 1),
      fmtOrdinal (mondayOf 739168 + 2), fmtOrdinal (mondayOf 739168 + 3),
      fmtOrdinal (mondayOf 739168 + 4)] ∧
    mondayOf 739168 = 739168 - pyWeekday 739168 ∧ pyWeekday (mondayOf 739168) = 0 ∧
    mondayOf 739168 ≤ 739168 ∧ 739168 < mondayOf 739168 + 7 ∧
    (∀ wk, wk ∈ weekKeys 739168 → (dictLookup c6res wk).isSome) :=
  c6_week_keys c6root 739168 c6res (by decide) (by rfl)

def c7day : Val :=
  .vdict [("2", .vdict [("isCooking", .vbool true),
    ("evidencia", .vdict [("stav", .vstr "X")])])]

def c7out : List (String × Val) :=
  [("isCooking", .vbool true),
   ("menus", .vdict [("1", .vlist []), ("2", .vlist [])]),
   ("reviews", .vdict [("1", reviewVal (-1) 0), ("2", reviewVal (-1) 0)])]

/-- C7 counterexample.  A cooking day whose prior-selection record is
`{"stav": "X"}` (the claim's withdrawal case) normalizes to a record with
NO `pick` key at all: `_extract_primary_day` never derives a pick field. -/
theorem c7_counterexample :
    extractPrimaryDay c7day = .ok (.vdict c7out) ∧
    dictLookup c7out "pick" = Option.none :=
  ⟨rfl, rfl⟩

/-- C7 amended.  The normalized record of `_extract_primary_day` is always
a dict without any `pick` field: the merged slot's prior-selection record
(`evidencia`) is ignored by this normalizer (selection state is only
derived in the legacy `parse_meal` path, and under codes "V"/letters, not
as a 0/1/2 pick). -/
theorem c7_no_pick_amended :
    ∀ v res, extractPrimaryDay v = .ok res →
      ∃ kvs, res = .vdict kvs ∧ dictLookup kvs "pick" = Option.none := by
  intro v res he
  cases v with
  | vdict obj =>
    simp only [extractPrimaryDay] at he
    generalize dictPop (mergeSlots obj) "nevarisa" = merged at he
    simp only [extractFromMerged] at he
    by_cases hc : truthy (dictGetD merged "isCooking" .vnone) = false
    · rw [if_pos hc] at he
      cases he
      exact ⟨[("isCooking", .vbool false)], rfl, rfl⟩
    · rw [if_neg hc] at he
      cases h1 : menuList (pyOr (dictGetD merged "menus" (.vdict [])) (.vdict [])) "1" with
      | error e => rw [h1] at he; exact Except.noConfusion he
      | ok cl1 =>
        rw [h1] at he
        cases h2 : menuList (pyOr (dictGetD merged "menus" (.vdict [])) (.vdict [])) "2" with
        | error e => rw [h2] at he; exact Except.noConfusion he
        | ok cl2 =>
          rw [h2] at he
          cases h3 : reviewFor (pyOr (dictGetD merged "hodnotenia" (.vdict [])) (.vdict [])) "1" with
          | error e => rw [h3] at he; exact Except.noConfusion he
          | ok rev1 =>
            rw [h3] at he
            cases h4 : reviewFor (pyOr (dictGetD merged "hodnotenia" (.vdict [])) (.vdict [])) "2" with
            | error e => rw [h4] at he; exact Except.noConfusion he
            | ok rev2 =>
              rw [h4] at he
              cases he
              refine ⟨_, rfl, ?_⟩
              cases hr : dictLookup merged "isRating" with
              | none => simp [hr, dictLookup]
              | some r => simp [hr, dictLookup]
  | vnone => simp only [extractPrimaryDay] at he; cases he; exact ⟨_, rfl, rfl⟩
  | vbool b => simp only [extractPrimaryDay] at he; cases he; exact ⟨_, rfl, rfl⟩
  | vnum q => simp only [extractPrimaryDay] at he; cases he; exact ⟨_, rfl, rfl⟩
  | vstr s => simp only [extractPrimaryDay] at he; cases he; exact ⟨_, rfl, rfl⟩
  | vlist xs => simp only [extractPrimaryDay] at he; cases he; exact ⟨_, rfl, rfl⟩

def c7wday : Val :=
  .vdict [("2", .vdict [("isCooking", .vbool true),
    ("evidencia", .vdict [("obj", .vstr "A")])])]

theorem c7_amended_witness :
    ∃ kvs, (.vdict c7out : Val) = .vdict kvs ∧ dictLookup kvs "pick" = Option.none :=
  c7_no_pick_amended c7wday (.vdict c7out) (by rfl)

def c8day : Val :=
  .vdict [("2", .vdict [("isCooking", .vbool true),
    ("menus", .vdict [("1", .vdict [("rows",
      .vlist [.vdict [("nazov", .vstr "Gulas I. !!"), ("hmotnostiStr", .vstr "150")]])])])])]

def c8out : List (String × Val) :=
  [("isCooking", .vbool true),
   ("menus", .vdict [("1", .vlist [.vdict [("name", .vstr "Gulas I. !!"),
                                           ("weight", .vnum ((150 : Int) : ℚ))]]),
                     ("2", .vlist [])]),
   ("reviews", .vdict [("1", reviewVal (-1) 0), ("2", reviewVal (-1) 0)])]

/-- C8 counterexample.  The dish name `"Gulas I. !!"` is stored in the
normalized menus COMPLETELY UNCHANGED: the emitted name still contains the
substring "I." (and the disallowed "!" characters), so no cleaning of the
kind the claim describes happens in `_extract_primary_day`. -/
theorem c8_counterexample :
    extractPrimaryDay c8day = .ok (.vdict c8out) ∧
    containsSeq ("Gulas I. !!").data ("I.").data = true :=
  ⟨rfl, by decide⟩

/-- Modelled from the amended claim's words: the rows loop keeps every dict
row whose raw `nazov` is truthy, dropping the others, and each kept row
emits exactly `{"name": raw nazov unchanged, "weight": coerced weight}` in
row order - no substring removal, no character filtering, no trimming. -/
def rowsSpec (rows : List Val) : List Val :=
  rows.foldr
    (fun r acc =>
      match r with
      | .vdict rd =>
        if truthy (dictGetD rd "nazov" .vnone) then
          .vdict [("name", dictGetD rd "nazov" .vnone),
                  ("weight", .vnum ((coerceWeight rd : Int) : ℚ))] :: acc
        else acc
      | _ => acc)
    []

/-- C8 amended.  Whenever the rows loop succeeds, its output is exactly
`rowsSpec`: names are the raw `nazov` values unchanged (no "I." removal,
no allow-set filtering, no trimming), and only falsy-named rows are
dropped. -/
theorem c8_names_amended :
    ∀ rows out, rowsClean rows = .ok out → out = rowsSpec rows := by
  intro rows
  induction rows with
  | nil =>
    intro out h
    simp only [rowsClean] at h
    cases h
    rfl
  | cons r rest ih =>
    intro out h
    cases r with
    | vdict rd =>
      simp only [rowsClean] at h
      cases ht : truthy (dictGetD rd "nazov" .vnone) with
      | false =>
        simp only [ht, Bool.false_eq_true, if_false] at h
        simp only [rowsSpec, List.foldr, ht, Bool.false_eq_true, if_false]
        exact ih out h
      | true =>
        simp only [ht, if_true] at h
        cases hrc : rowsClean rest with
        | error e => simp only [hrc] at h; exact Except.noConfusion h
        | ok rest' =>
          simp only [hrc] at h
          cases h
          simp only [rowsSpec, List.foldr, ht, if_true]
          rw [ih rest' hrc]
          rfl
    | vnone => simp only [rowsClean] at h; exact Except.noConfusion h
    | vbool b => simp only [rowsClean] at h; exact Except.noConfusion h
    | vnum q => simp only [rowsClean] at h; exact Except.noConfusion h
    | vstr s => simp only [rowsClean] at h; exact Except.noConfusion h
    | vlist xs => simp only [rowsClean] at h; exact Except.noConfusion h

def c8wrows : List Val :=
  [.vdict [("nazov", .vstr "Kura na paprike I."), ("hmotnostiStr", .vstr "250")],
   .vdict [("nazov", .vstr "")],
   .vdict [("alergenyStr", .vstr "1,3")]]

def c8wout : List Val :=
  [.vdict [("name", .vstr "Kura na paprike I."), ("weight", .vnum ((250 : Int) : ℚ))]]

theorem c8_amended_witness : c8wout = rowsSpec c8wrows :=
  c8_names_amended c8wrows c8wout (by rfl)

/-- C9.  Frame property of normalization: for every well-formed store and
input value, a successful run of the store-level `_extract_primary_day`
leaves every address already allocated on entry unchanged (the deep copies
confine the in-place `update`/`pop("nevarisa")`/record construction to
fresh addresses), so any read-back of the input payload taken before the
call still succeeds with the identical pure value afterwards. -/
theorem c9_input_untouched (fuel : Nat) (h : Heap) (v : HVal) (h' : Heap) (r : HVal)
    (hwf : h.wf) (he : hExtractPrimaryDay fuel h v = some (h', r)) :
    (∀ a, a < h.next → h'.mem a = h.mem a) ∧
    (∀ n s, snapV n h v = some s → snapV n h' v = some s) :=
  ⟨(hExtract_frame fuel h v h' r he).2,
   fun n s hs => snapV_stable n h h' v s hwf (hExtract_frame fuel h v h' r he) hs⟩

def c9mem : Nat → Option HObj := fun a =>
  if a = 0 then some (.hdict [("2", .href 1)])
  else if a = 1 then
    some (.hdict [("isCooking", .hbool true), ("nevarisa", .hbool true)])
  else Option.none

def c9H : Heap := ⟨c9mem, 2⟩

def c9out : Heap × HVal := (hExtractPrimaryDay 10 c9H (.href 0)).getD (c9H, .hnone)

theorem c9_witness :
    (∀ a, a < c9H.next → c9out.1.mem a = c9H.mem a) ∧
    (∀ n s, snapV n c9H (.href 0) = some s → snapV n c9out.1 (.href 0) = some s) :=
  c9_input_untouched 10 c9H (.href 0) c9out.1 c9out.2
    (fun a ha => by
      have h2 : 2 ≤ a := ha
      show c9mem a = Option.none
      simp only [c9mem]
      rw [if_neg (by omega), if_neg (by omega)])
    (by rfl)

/-- C10.  `Meal.choose(edupage, number)` submits `"ABCDEFGH"[number - 1]`:
for 1 ≤ number ≤ 8 that is the number-th letter (set as `ordered_meal` on
success); `choose(0)` raises nothing and silently submits "H" (negative
index wraparound); any number outside -7..8 fails with an index error
before any request is sent. -/
theorem c10_choose_letter_indexing :
    (∀ (n : Int) (ok : Bool), 1 ≤ n → n ≤ 8 →
      ∃ c, chooseLetters.data.get? (n - 1).toNat = some c ∧
        chooseModel n ok =
          (if ok then ChooseOutcome.chosen c else ChooseOutcome.requestFailed c)) ∧
    (∀ ok : Bool, chooseModel 0 ok =
      (if ok then ChooseOutcome.chosen 'H' else ChooseOutcome.requestFailed 'H')) ∧
    (∀ (n : Int) (ok : Bool), (n < -7 ∨ 8 < n) → chooseModel n ok = .indexError) := by
  refine ⟨?_, ?_, ?_⟩
  · intro n ok h1 h8
    have hlen : ((chooseLetters.length : Nat) : Int) = 8 := by decide
    have hdlen : chooseLetters.data.length = 8 := by decide
    have hcond : 0 ≤ n - 1 ∧ n - 1 < ((chooseLetters.length : Nat) : Int) := by
      rw [hlen]; omega
    have hlt : (n - 1).toNat < chooseLetters.data.length := by omega
    cases hg : chooseLetters.data.get? (n - 1).toNat with
    | none =>
      rw [List.get?_eq_none] at hg
      omega
    | some c =>
      refine ⟨c, rfl, ?_⟩
      simp only [chooseModel, pyStrIndex]
      rw [if_pos hcond, hg]
  · intro ok
    cases ok <;> rfl
  · intro n ok hout
    have hlen : ((chooseLetters.length : Nat) : Int) = 8 := by decide
    simp only [chooseModel, pyStrIndex, hlen]
    rw [if_neg (by omega), if_neg (by omega)]

theorem c10_witness :
    (∃ c, chooseLetters.data.get? ((3 : Int) - 1).toNat = some c ∧
      chooseModel 3 true =
        (if true then ChooseOutcome.chosen c else ChooseOutcome.requestFailed c)) ∧
    chooseModel 0 true =
      (if true then ChooseOutcome.chosen 'H' else ChooseOutcome.requestFailed 'H') ∧
    chooseModel 9 false = .indexError :=
  ⟨c10_choose_letter_indexing.1 3 true (by decide) (by decide),
   c10_choose_letter_indexing.2.1 true,
   c10_choose_letter_indexing.2.2 9 false (Or.inr (by decide))⟩
